import Mathlib

/-
Verification of the deterministic chaos-injection core of mikoshi-core.

The development shallowly embeds the TypeScript sources:
  * src/packages/shared/src/random/seeded-random.ts  (Park-Miller LCG and its
    derived sampling operations) — namespace `SeededRandom`;
  * src/packages/shared/src/errors.ts                (error taxonomy) — `JSError`;
  * the injection coordinator described in the design document (the repository
    ships only the `ChaosInjector` interface in src/packages/types/src/engine.ts,
    not an implementation) — namespace `Mikoshi`, modelled from the spec.

JavaScript numbers are modelled as exact rationals (ℚ); the generator state is
a natural number.  Fallible operations return `Except JSError`.
-/

set_option maxRecDepth 4000

/-- The universe of error values observable from the embedded code.
`plainError` embeds the JavaScript built-in `Error` class, which is the only
class `seeded-random.ts` constructs; `rangeError` embeds the JS built-in
`RangeError`; `emptyInputError` embeds the `EmptyInputError` class named by the
spec taxonomy.  Neither of the latter two is ever constructed anywhere in the
repository (`errors.ts` defines neither class). -/
inductive JSError where
  | plainError (msg : String)
  | rangeError (msg : String)
  | emptyInputError (msg : String)
deriving DecidableEq

/-- True exactly on the `rangeError` constructor. -/
def JSError.isRangeError : JSError → Bool
  | .rangeError _ => true
  | _ => false

/-- True exactly on the `emptyInputError` constructor. -/
def JSError.isEmptyInputError : JSError → Bool
  | .emptyInputError _ => true
  | _ => false

namespace SeededRandom

/-- Embeds `SeededRandom.MULTIPLIER = 48271` (Park-Miller multiplier). -/
def MULTIPLIER : ℕ := 48271

/-- Embeds `SeededRandom.MODULUS = 2147483647` (the Mersenne prime 2^31 - 1). -/
def MODULUS : ℕ := 2147483647

/-- Embeds `SeededRandom.CHECK = 1493962164`, the reference seed value after
10000 iterations from seed 1. -/
def CHECK : ℕ := 1493962164

/-- Embeds the constructor `new SeededRandom(seed)`:
`this.seed = Math.abs(Math.floor(seed)) || 1`, then reduce `mod MODULUS` when
`seed >= MODULUS`, then coerce a zero seed to 1.  The input is an arbitrary
rational, standing for an arbitrary (finite) JS number. -/
def create (x : ℚ) : ℕ :=
  let s0 : ℕ := (⌊x⌋).natAbs
  let s1 : ℕ := if s0 = 0 then 1 else s0
  let s2 : ℕ := if MODULUS ≤ s1 then s1 % MODULUS else s1
  if s2 = 0 then 1 else s2

/-- Embeds the state update of `next()`:
`this.seed = (this.seed * MULTIPLIER) % MODULUS`. -/
def nextSeed (s : ℕ) : ℕ := s * MULTIPLIER % MODULUS

/-- Embeds the value returned by `next()`:
`(this.seed - 1) / (MODULUS - 1)` evaluated after the state update. -/
def nextVal (s : ℕ) : ℚ := ((nextSeed s : ℚ) - 1) / ((MODULUS : ℚ) - 1)

/-- Internal seed after `n` consecutive `next()` calls from state `s`. -/
def seedAfter (s : ℕ) : ℕ → ℕ
  | 0 => s
  | n + 1 => nextSeed (seedAfter s n)

/-- The list of the first `n` values returned by `next()` from state `s`. -/
def drawList (s : ℕ) : ℕ → List ℚ
  | 0 => []
  | n + 1 => nextVal s :: drawList (nextSeed s) n

/-- Embeds `SeededRandom.verify()`: construct from seed 1, call `next()` 9999
times, compare the internal seed with `CHECK`. -/
def verify : Bool := seedAfter (create 1) 9999 == CHECK

/-- Embeds `reset(seed?)`: with no argument (`none`) the body is skipped; with
an explicit seed the constructor's normalization sequence is reapplied (the
source duplicates the three normalization steps verbatim). -/
def reset (o : Option ℚ) (s : ℕ) : ℕ :=
  match o with
  | none => s
  | some q =>
    let s0 : ℕ := (⌊q⌋).natAbs
    let s1 : ℕ := if s0 = 0 then 1 else s0
    let s2 : ℕ := if MODULUS ≤ s1 then s1 % MODULUS else s1
    if s2 = 0 then 1 else s2

/-- The documented invariant on the generator state: a 31-bit value in
`[1, 2^31 - 2]`, never zero. -/
def ValidSeed (s : ℕ) : Prop := 1 ≤ s ∧ s ≤ 2147483646

instance (s : ℕ) : Decidable (ValidSeed s) :=
  inferInstanceAs (Decidable (1 ≤ s ∧ s ≤ 2147483646))

/-- The exact message of the error thrown by `nextInt(min, max)` when
`min > max`. -/
def invalidRangeMsg (lo hi : ℤ) : String :=
  "Invalid range: min (" ++ toString lo ++ ") must be <= max (" ++ toString hi ++ ")"

/-- The integer value returned by `nextInt(min, max)` on the non-throwing path:
`Math.floor(this.next() * range) + min` with `range = max - min + 1`. -/
def nextIntVal (s : ℕ) (lo hi : ℤ) : ℤ :=
  ⌊nextVal s * ((hi - lo + 1 : ℤ) : ℚ)⌋ + lo

/-- Embeds `nextInt(min, max)`: throws `new Error(...)` when `min > max`,
otherwise advances the state once and returns
`Math.floor(this.next() * range) + min`. -/
def nextInt (lo hi : ℤ) (s : ℕ) : Except JSError (ℤ × ℕ) :=
  if hi < lo then .error (.plainError (invalidRangeMsg lo hi))
  else .ok (nextIntVal s lo hi, nextSeed s)

/-- Embeds `choice(array)`: throws `new Error('Cannot choose from empty array')`
on an empty array, otherwise returns `array[this.nextInt(0, array.length - 1)]`.
JS out-of-range indexing yields `undefined`, modelled by the `Option` in the
result. -/
def choice {α : Type} (l : List α) (s : ℕ) : Except JSError (Option α × ℕ) :=
  if l.length = 0 then .error (.plainError "Cannot choose from empty array")
  else
    match nextInt 0 ((l.length : ℤ) - 1) s with
    | .error e => .error e
    | .ok (i, s2) => .ok (l[i.toNat]?, s2)

/-- One step of the Fisher-Yates loop body:
`[result[i], result[j]] = [result[j], result[i]]`.  Out-of-range indices leave
the list unchanged (the loop below only produces in-range indices). -/
def listSwap {α : Type} (l : List α) (i j : ℕ) : List α :=
  match l[i]?, l[j]? with
  | some a, some b => (l.set i b).set j a
  | _, _ => l

/-- The Fisher-Yates loop of `shuffle`:
`for (let i = result.length - 1; i > 0; i--) { const j = this.nextInt(0, i);
swap i j }`.  The third argument is the current loop index `i`; the
`nextInt(0, i)` call never throws since `0 ≤ i`, and contributes the value
`nextIntVal s 0 i` while advancing the state once. -/
def fisherAux {α : Type} : ℕ → List α → ℕ → List α × ℕ
  | s, l, 0 => (l, s)
  | s, l, i + 1 =>
    fisherAux (nextSeed s) (listSwap l (i + 1) (nextIntVal s 0 ((i + 1 : ℕ) : ℤ)).toNat) i

/-- Embeds `shuffle(array)`: copy the input (`const result = [...array]`), run
the Fisher-Yates loop from index `length - 1` down to `1`, return the copy
together with the advanced generator state. -/
def shuffle {α : Type} (s : ℕ) (l : List α) : List α × ℕ := fisherAux s l (l.length - 1)

/-- Embeds `sample(array, n)`: throws when `n > array.length` or `n < 0`,
otherwise shuffles a copy and takes the first `n` elements (`slice(0, n)`). -/
def sample {α : Type} (l : List α) (n : ℤ) (s : ℕ) : Except JSError (List α × ℕ) :=
  if (l.length : ℤ) < n then
    .error (.plainError ("Cannot sample " ++ toString n ++
      " elements from array of length " ++ toString l.length))
  else if n < 0 then
    .error (.plainError ("Sample size must be non-negative, got " ++ toString n))
  else
    match shuffle s l with
    | (res, s2) => .ok (res.take n.toNat, s2)

/-- Pure natural-number evaluator for the Fisher-Yates loop: identical to
`fisherAux` except that the exact rational `Math.floor(next() * (i + 1))` is
replaced by the equal natural-number division (see
`fisherAux_eq_fisherAuxN`), which the kernel can evaluate on concrete input. -/
def fisherAuxN {α : Type} : ℕ → List α → ℕ → List α × ℕ
  | s, l, 0 => (l, s)
  | s, l, i + 1 =>
    fisherAuxN (nextSeed s) (listSwap l (i + 1) ((nextSeed s - 1) * (i + 1 + 1) / 2147483646)) i

/-- A minimal mutable-heap model used for the frame property of `shuffle`:
`heap` holds the JS arrays by reference index, `seed` the generator state. -/
structure Store (α : Type) where
  heap : List (List α)
  seed : ℕ

/-- The Fisher-Yates loop of `shuffle` acting on the heap: every write of the
loop body targets the array at reference `r` (the freshly allocated copy), and
each iteration advances the generator state once. -/
def shuffleLoopRef {α : Type} (r : ℕ) : ℕ → Store α → Store α
  | 0, st => st
  | i + 1, st =>
    shuffleLoopRef r i
      (Store.mk
        (st.heap.set r
          (listSwap (st.heap.getD r []) (i + 1) (nextIntVal st.seed 0 ((i + 1 : ℕ) : ℤ)).toNat))
        (nextSeed st.seed))

/-- Embeds `shuffle(array)` at the heap level: `const result = [...array]`
allocates a fresh array (a copy of the argument, appended at the fresh
reference `heap.length`), the loop then mutates only that fresh array, and the
function returns the fresh reference together with the final store. -/
def shuffleRef {α : Type} (st : Store α) (r : ℕ) : ℕ × Store α :=
  (st.heap.length,
    shuffleLoopRef st.heap.length ((st.heap.getD r []).length - 1)
      (Store.mk (st.heap ++ [st.heap.getD r []]) st.seed))

/-- Concrete one-array store used by the frame witness. -/
def wStore : Store ℕ := Store.mk [[1, 2]] 5

end SeededRandom

namespace Mikoshi

open SeededRandom

/-- Embeds the `Message` value of src/packages/types (the fields the chaos
modes touch). -/
structure Message where
  id : String
  agentId : String
  content : String
  timestamp : ℚ
deriving DecidableEq

/-- Embeds `Conversation`: the ordered messages plus the agent identifiers. -/
structure Conversation where
  messages : List Message
  agents : List String
deriving DecidableEq

/-- The statistics of `ChaosResult` relevant to the loss and delay modes. -/
structure ChaosStatistics where
  droppedMessages : ℕ
  delayedMessages : ℕ
deriving DecidableEq

/-- Modelled from the spec: the parameter shapes of the two chaos modes that
the spec's composed-injection example exercises (`message-loss` with the
`random` pattern, and `delay` with the `uniform` distribution).  The
repository defines the `ChaosConfiguration` type and the `ChaosInjector`
interface but ships no mode implementation. -/
inductive ChaosParams where
  | messageLoss (lossRate : ℚ)
  | delay (minDelay maxDelay : ℚ)
deriving DecidableEq

/-- Embeds `ChaosConfiguration`: an optional per-mode seed plus the
mode-specific parameters. -/
structure ChaosConfiguration where
  seed : Option ℚ
  params : ChaosParams
deriving DecidableEq

/-- Modelled from the spec: `message-loss` with `pattern = random` drops each
message independently with probability `lossRate`
(`nextBoolean(lossRate)`, i.e. `next() < lossRate`), consuming one draw per
message in source order; returns the surviving messages, the advanced
generator state and the drop count. -/
def applyMessageLoss (rate : ℚ) : List Message → ℕ → List Message × ℕ × ℕ
  | [], s => ([], s, 0)
  | m :: rest, s =>
    match applyMessageLoss rate rest (nextSeed s) with
    | (tail, s2, d) =>
      if nextVal s < rate then (tail, s2, d + 1) else (m :: tail, s2, d)

/-- Modelled from the spec: `delay` with `distribution = uniform` adds
`nextFloat(minDelay, maxDelay) = next() * (max - min) + min` to every
message's timestamp, consuming one draw per message in source order. -/
def applyDelay (lo hi : ℚ) : List Message → ℕ → List Message × ℕ × ℕ
  | [], s => ([], s, 0)
  | m :: rest, s =>
    match applyDelay lo hi rest (nextSeed s) with
    | (tail, s2, d) =>
      (Message.mk m.id m.agentId m.content (m.timestamp + (nextVal s * (hi - lo) + lo)) :: tail,
        s2, d + 1)

/-- Modelled from the spec (§4.3, Injection Coordinator): apply the
configurations in order, each against the already-mutated output of the
previous one; a single generator is threaded through the whole run, and a
configuration's own `seed` field reseeds the generator exactly when it is
explicitly set. -/
def injectAux : List ChaosConfiguration → List Message → ℕ → ChaosStatistics →
    List Message × ChaosStatistics
  | [], msgs, _, acc => (msgs, acc)
  | c :: rest, msgs, s, acc =>
    let s0 : ℕ := match c.seed with | some q => create q | none => s
    match c.params with
    | .messageLoss rate =>
      match applyMessageLoss rate msgs s0 with
      | (msgs2, s2, d) =>
        injectAux rest msgs2 s2
          (ChaosStatistics.mk (acc.droppedMessages + d) acc.delayedMessages)
    | .delay lo hi =>
      match applyDelay lo hi msgs s0 with
      | (msgs2, s2, d) =>
        injectAux rest msgs2 s2
          (ChaosStatistics.mk acc.droppedMessages (acc.delayedMessages + d))

/-- Modelled from the spec: `inject(conversation, configs)`.  The
`defaultSeed` argument stands for the ambient process default (such as
`Date.now()`), used only while no configuration pins an explicit seed. -/
def inject (defaultSeed : ℚ) (conv : Conversation) (cfgs : List ChaosConfiguration) :
    Conversation × ChaosStatistics :=
  match injectAux cfgs conv.messages (create defaultSeed) (ChaosStatistics.mk 0 0) with
  | (msgs2, stats) => (Conversation.mk msgs2 conv.agents, stats)

/-- One-message conversation used by the determinism witness. -/
def wConv : Conversation :=
  Conversation.mk [Message.mk "m1" "a1" "hello" 0] ["a1"]

/-- The configuration chain of the spec's determinism example:
`[lossCfg(seed = 42), delayCfg]`. -/
def wCfgs : List ChaosConfiguration :=
  [ChaosConfiguration.mk (some 42) (ChaosParams.messageLoss (3 / 10)),
   ChaosConfiguration.mk none (ChaosParams.delay 100 100)]

end Mikoshi

namespace SeededRandom

lemma create_valid (x : ℚ) : ValidSeed (create x) := by
  unfold ValidSeed
  simp only [create]
  generalize (⌊x⌋).natAbs = a
  have hM : MODULUS = 2147483647 := rfl
  rw [hM]
  constructor <;> (split_ifs <;> omega)

lemma nextSeed_lt (s : ℕ) : nextSeed s < MODULUS :=
  Nat.mod_lt _ (by norm_num [ MODULUS])

lemma nextSeed_valid {s : ℕ} (hs : ValidSeed s) : ValidSeed (nextSeed s) := by
  obtain ⟨h1, h2⟩ := hs
  have hlt : nextSeed s < MODULUS := nextSeed_lt s
  have hM : MODULUS = 2147483647 := rfl
  rw [hM] at hlt
  have hne : nextSeed s ≠ 0 := by
    intro h0
    have hdvd : MODULUS ∣ s * MULTIPLIER := Nat.dvd_iff_mod_eq_zero.mpr h0
    have hcop : Nat.Coprime MODULUS MULTIPLIER := by decide
    have hdvds : MODULUS ∣ s := hcop.dvd_of_dvd_mul_right hdvd
    have hle := Nat.le_of_dvd (by omega) hdvds
    rw [hM] at hle
    omega
  constructor
  · omega
  · omega

lemma seedAfter_valid {s : ℕ} (hs : ValidSeed s) (n : ℕ) : ValidSeed (seedAfter s n) := by
  induction n with
  | zero => exact hs
  | succ n ih => exact nextSeed_valid ih

lemma modulus_cast : ((MODULUS : ℕ) : ℚ) = 2147483647 := by
  norm_num [ MODULUS]

lemma nextVal_nonneg {s : ℕ} (hs : ValidSeed s) : 0 ≤ nextVal s := by
  obtain ⟨h1, _⟩ := nextSeed_valid hs
  unfold nextVal
  rw [modulus_cast]
  apply div_nonneg
  · have : (1 : ℚ) ≤ (nextSeed s : ℚ) := by exact_mod_cast h1
    linarith
  · norm_num

lemma nextVal_lt_one {s : ℕ} (hs : ValidSeed s) : nextVal s < 1 := by
  obtain ⟨_, h2⟩ := nextSeed_valid hs
  unfold nextVal
  rw [modulus_cast, div_lt_one (by norm_num)]
  have : (nextSeed s : ℚ) ≤ 2147483646 := by exact_mod_cast h2
  linarith

lemma seedAfter_closed (s : ℕ) (hs : s < MODULUS) (n : ℕ) :
    seedAfter s n = s * MULTIPLIER ^ n % MODULUS := by
  induction n with
  | zero => simp [seedAfter, Nat.mod_eq_of_lt hs]
  | succ n ih =>
    show nextSeed (seedAfter s n) = _
    rw [ih]
    unfold nextSeed
    rw [Nat.mod_mul_mod, pow_succ, ← mul_assoc]

lemma create_one : create 1 = 1 := by
  norm_num [create, MODULUS]

lemma create_zero : create 0 = 1 := by
  norm_num [create, MODULUS]

lemma pow_check : (48271 : ℕ) ^ 9999 % 2147483647 = 1493962164 := by
  have h9 : (9999 : ℕ) = 9 * 11 * 101 := by norm_num
  rw [h9, pow_mul, pow_mul, Nat.pow_mod]
  rw [Nat.pow_mod ((48271 : ℕ) ^ 9) 11]
  norm_num

/-- Claim C2: starting from seed 1, after the 9999 `next()` calls performed by
`SeededRandom.verify()` the internal seed equals the constant 1493962164
(`CHECK`), hence `verify()` returns `true`. -/
theorem verify_check : seedAfter (create 1) 9999 = CHECK ∧ verify = true := by
  have h : seedAfter (create 1) 9999 = CHECK := by
    rw [create_one, seedAfter_closed 1 (by norm_num [ MODULUS]) 9999, one_mul]
    have hMul : MULTIPLIER = 48271 := rfl
    have hMod : MODULUS = 2147483647 := rfl
    rw [hMul, hMod, pow_check]
    rfl
  refine ⟨h, ?_⟩
  unfold verify
  rw [h]
  simp

/-- Claim C3: for every construction seed (any rational number: zero, negative,
fractional, or larger than 2^31 - 1) and every number `n` of subsequent
`next()` calls, the internal seed stays in `[1, 2^31 - 2]`, and the value the
next `next()` call returns lies in `[0, 1)`. -/
theorem seed_invariant (x : ℚ) (n : ℕ) :
    1 ≤ seedAfter (create x) n ∧ seedAfter (create x) n ≤ 2147483646 ∧
    0 ≤ nextVal (seedAfter (create x) n) ∧ nextVal (seedAfter (create x) n) < 1 := by
  have hv : ValidSeed (seedAfter (create x) n) := seedAfter_valid (create_valid x) n
  exact ⟨hv.1, hv.2, nextVal_nonneg hv, nextVal_lt_one hv⟩

/-- Claim C4: for every draw count `n`, a generator constructed with seed 0 and
one constructed with seed 1 produce identical sequences of `next()` values:
the normalization `Math.abs(Math.floor(seed)) || 1` maps both to state 1. -/
theorem seed_zero_eq_seed_one (n : ℕ) :
    drawList (create 0) n = drawList (create 1) n := by
  rw [create_zero, create_one]

/-- Claim C10: `reset()` with no argument leaves the internal seed unchanged
(the subsequent draw sequence continues exactly where it left off), and only
`reset(s)` with an explicit seed changes the state, to exactly the state a
freshly constructed `SeededRandom(s)` would have. -/
theorem reset_semantics :
    (∀ s : ℕ, reset none s = s) ∧
    (∀ (s n : ℕ), drawList (reset none s) n = drawList s n) ∧
    (∀ (q : ℚ) (s : ℕ), reset (some q) s = create q) :=
  ⟨fun _ => rfl, fun _ _ => rfl, fun _ _ => rfl⟩

lemma nextIntVal_mem {s : ℕ} (hs : ValidSeed s) {lo hi : ℤ} (h : lo ≤ hi) :
    lo ≤ nextIntVal s lo hi ∧ nextIntVal s lo hi ≤ hi := by
  unfold nextIntVal
  have h0 := nextVal_nonneg hs
  have h1 := nextVal_lt_one hs
  have hr : (0 : ℤ) < hi - lo + 1 := by omega
  have hrq : (0 : ℚ) ≤ ((hi - lo + 1 : ℤ) : ℚ) := by exact_mod_cast hr.le
  constructor
  · have hf : (0 : ℤ) ≤ ⌊nextVal s * ((hi - lo + 1 : ℤ) : ℚ)⌋ :=
      Int.floor_nonneg.mpr (mul_nonneg h0 hrq)
    omega
  · have hf : ⌊nextVal s * ((hi - lo + 1 : ℤ) : ℚ)⌋ < hi - lo + 1 := by
      rw [Int.floor_lt]
      calc nextVal s * ((hi - lo + 1 : ℤ) : ℚ)
          < 1 * ((hi - lo + 1 : ℤ) : ℚ) := by
            apply mul_lt_mul_of_pos_right h1
            exact_mod_cast hr
        _ = ((hi - lo + 1 : ℤ) : ℚ) := one_mul _
    omega

lemma nextInt_ok {s : ℕ} {lo hi : ℤ} (h : lo ≤ hi) :
    nextInt lo hi s = .ok (nextIntVal s lo hi, nextSeed s) := by
  unfold nextInt
  rw [if_neg (not_lt.mpr h)]

/-- Claim C7 counterexample: `nextInt(1, 0)` throws, but the thrown error is a
plain JS `Error` (message "Invalid range: ..."), not a `RangeError`: the source
constructs `new Error(...)` and the repository defines no `RangeError` class. -/
theorem nextInt_error_not_rangeError :
    nextInt 1 0 1 = .error (.plainError (invalidRangeMsg 1 0)) ∧
    (JSError.plainError (invalidRangeMsg 1 0)).isRangeError = false :=
  ⟨rfl, rfl⟩

/-- Claim C7 (amended): `nextInt(min, max)` throws exactly when `min > max`,
and the thrown error is the plain `Error` with message
`Invalid range: min (...) must be <= max (...)` (not a `RangeError`); for every
`min ≤ max` and every valid generator state it returns an integer in the
inclusive range `[min, max]` and the advanced state. -/
theorem nextInt_spec (s : ℕ) (hs : ValidSeed s) :
    (∀ lo hi : ℤ, hi < lo →
      nextInt lo hi s = .error (.plainError (invalidRangeMsg lo hi))) ∧
    (∀ lo hi : ℤ, lo ≤ hi →
      nextInt lo hi s = .ok (nextIntVal s lo hi, nextSeed s) ∧
      lo ≤ nextIntVal s lo hi ∧ nextIntVal s lo hi ≤ hi) := by
  constructor
  · intro lo hi hlt
    unfold nextInt
    rw [if_pos hlt]
  · intro lo hi hle
    exact ⟨nextInt_ok hle, nextIntVal_mem hs hle⟩

/-- Claim C7 witness: at state 7 with `min = 0`, `max = 9` the non-throwing
branch of `nextInt_spec` applies. -/
theorem nextInt_spec_witness :
    ValidSeed 7 ∧
    (nextInt 0 9 7 = .ok (nextIntVal 7 0 9, nextSeed 7) ∧
      0 ≤ nextIntVal 7 0 9 ∧ nextIntVal 7 0 9 ≤ 9) :=
  ⟨by decide, (nextInt_spec 7 (by decide)).2 0 9 (by decide)⟩

/-- Claim C8 counterexample: `choice([])` throws, but the thrown error is the
plain JS `Error` with message "Cannot choose from empty array", not an
`EmptyInputError`: no `EmptyInputError` class exists anywhere in the code. -/
theorem choice_error_not_emptyInputError :
    choice ([] : List ℕ) 1 = .error (.plainError "Cannot choose from empty array") ∧
    (JSError.plainError "Cannot choose from empty array").isEmptyInputError = false :=
  ⟨rfl, rfl⟩

/-- Claim C8 (amended): `choice(xs)` throws exactly when `xs` is empty, and the
thrown error is the plain `Error` with message "Cannot choose from empty array"
(not an `EmptyInputError`); for every non-empty `xs` and valid generator state
it returns an element of `xs`, selected via `nextInt(0, len - 1)`. -/
theorem choice_spec {α : Type} (s : ℕ) (hs : ValidSeed s) :
    (∀ l : List α, l.length = 0 →
      choice l s = .error (.plainError "Cannot choose from empty array")) ∧
    (∀ l : List α, l ≠ [] →
      ∃ a, a ∈ l ∧ choice l s = .ok (some a, nextSeed s)) := by
  constructor
  · intro l hl
    unfold choice
    rw [if_pos hl]
  · intro l hl
    have hlen : 1 ≤ l.length := List.length_pos.mpr hl
    have hle : (0 : ℤ) ≤ (l.length : ℤ) - 1 := by
      have : (1 : ℤ) ≤ (l.length : ℤ) := by exact_mod_cast hlen
      omega
    obtain ⟨hlo, hhi⟩ := nextIntVal_mem hs hle
    have hidx : (nextIntVal s 0 ((l.length : ℤ) - 1)).toNat < l.length := by
      omega
    refine ⟨l.get ⟨(nextIntVal s 0 ((l.length : ℤ) - 1)).toNat, hidx⟩, List.get_mem l _ hidx, ?_⟩
    unfold choice
    rw [if_neg (by omega), nextInt_ok hle]
    show Except.ok (l[(nextIntVal s 0 ((l.length : ℤ) - 1)).toNat]?, nextSeed s) = _
    rw [List.getElem?_eq_getElem hidx]
    rfl

/-- Claim C8 witness: at state 1 on the two-element list `[3, 4]` the
non-throwing branch of `choice_spec` applies. -/
theorem choice_spec_witness :
    ValidSeed 1 ∧
    (∃ a, a ∈ ([3, 4] : List ℕ) ∧ choice [3, 4] 1 = .ok (some a, nextSeed 1)) :=
  ⟨by decide, (choice_spec 1 (by decide)).2 [3, 4] (by decide)⟩

lemma set_getElem?_self {α : Type} (l : List α) (i : ℕ) (a : α) (h : l[i]? = some a) :
    l.set i a = l := by
  induction l generalizing i with
  | nil => simp at h
  | cons x t ih =>
    cases i with
    | zero => simp_all
    | succ k =>
      simp only [List.getElem?_cons_succ] at h
      simpa using ih k h

lemma cons_set_perm {α : Type} (t : List α) (k : ℕ) (b x : α) (h : t[k]? = some b) :
    List.Perm (b :: t.set k x) (x :: t) := by
  induction t generalizing k with
  | nil => simp at h
  | cons y ys ih =>
    cases k with
    | zero =>
      simp only [List.getElem?_cons_zero, Option.some.injEq] at h
      subst h
      exact List.Perm.swap x y ys
    | succ k =>
      simp only [List.getElem?_cons_succ] at h
      show List.Perm (b :: y :: ys.set k x) (x :: y :: ys)
      have step1 : List.Perm (b :: y :: ys.set k x) (y :: b :: ys.set k x) :=
        List.Perm.swap y b _
      have step2 : List.Perm (y :: b :: ys.set k x) (y :: x :: ys) :=
        List.Perm.cons y (ih k h)
      have step3 : List.Perm (y :: x :: ys) (x :: y :: ys) := List.Perm.swap x y ys
      exact (step1.trans step2).trans step3

lemma set_set_perm_lt {α : Type} :
    ∀ (l : List α) (i j : ℕ), i < j → ∀ (a b : α), l[i]? = some a → l[j]? = some b →
      List.Perm ((l.set i b).set j a) l := by
  intro l
  induction l with
  | nil => intro i j hij a b ha hb; simp at ha
  | cons x t ih =>
    intro i j hij a b ha hb
    cases i with
    | zero =>
      obtain ⟨k, rfl⟩ : ∃ k, j = k + 1 := ⟨j - 1, by omega⟩
      simp only [List.getElem?_cons_zero, Option.some.injEq] at ha
      subst ha
      simp only [List.getElem?_cons_succ] at hb
      show List.Perm (b :: t.set k x) (x :: t)
      exact cons_set_perm t k b x hb
    | succ m =>
      cases j with
      | zero => omega
      | succ k =>
        simp only [List.getElem?_cons_succ] at ha hb
        show List.Perm (x :: (t.set m b).set k a) (x :: t)
        exact List.Perm.cons x (ih m k (by omega) a b ha hb)

lemma listSwap_perm {α : Type} (l : List α) (i j : ℕ) :
    List.Perm (listSwap l i j) l := by
  unfold listSwap
  cases hi : l[i]? with
  | none =>
    cases hj : l[j]? with
    | none => exact List.Perm.refl l
    | some b => exact List.Perm.refl l
  | some a =>
    cases hj : l[j]? with
    | none => exact List.Perm.refl l
    | some b =>
      show List.Perm ((l.set i b).set j a) l
      rcases lt_trichotomy i j with h | h | h
      · exact set_set_perm_lt l i j h a b hi hj
      · subst h
        rw [List.set_set, set_getElem?_self l i a hi]
      · rw [List.set_comm b a l (by omega)]
        exact set_set_perm_lt l j i h b a hj hi

lemma fisherAux_succ {α : Type} (s : ℕ) (l : List α) (i : ℕ) :
    fisherAux s l (i + 1) =
      fisherAux (nextSeed s) (listSwap l (i + 1) (nextIntVal s 0 ((i + 1 : ℕ) : ℤ)).toNat) i :=
  rfl

lemma fisherAux_perm {α : Type} : ∀ (i s : ℕ) (l : List α), List.Perm (fisherAux s l i).1 l := by
  intro i
  induction i with
  | zero => intro s l; exact List.Perm.refl l
  | succ i ih =>
    intro s l
    rw [fisherAux_succ]
    exact (ih _ _).trans (listSwap_perm l _ _)

lemma shuffle_perm {α : Type} (s : ℕ) (l : List α) : List.Perm (shuffle s l).1 l :=
  fisherAux_perm _ s l

/-- Claim C5: for every input array (duplicates included) and every generator
state, `shuffle` returns a permutation of its input: the multiset of elements
of the output equals the multiset of elements of the input. -/
theorem shuffle_multiset_eq {α : Type} (s : ℕ) (l : List α) :
    ((shuffle s l).1 : Multiset α) = (l : Multiset α) :=
  Multiset.coe_eq_coe.mpr (shuffle_perm s l)

lemma nextIntVal_natCast {s : ℕ} (hs : ValidSeed s) (k : ℕ) :
    nextIntVal s 0 (k : ℤ) = (((nextSeed s - 1) * (k + 1) / 2147483646 : ℕ) : ℤ) := by
  have h1 : 1 ≤ nextSeed s := (nextSeed_valid hs).1
  unfold nextIntVal nextVal
  rw [add_zero, modulus_cast]
  have e1 : ((nextSeed s : ℚ) - 1) = ((nextSeed s - 1 : ℕ) : ℚ) := by
    rw [Nat.cast_sub h1, Nat.cast_one]
  have e2 : (((k : ℤ) - 0 + 1 : ℤ) : ℚ) = ((k + 1 : ℕ) : ℚ) := by
    push_cast
    ring
  have e3 : (2147483647 : ℚ) - 1 = ((2147483646 : ℕ) : ℚ) := by norm_num
  rw [e1, e2, e3, div_mul_eq_mul_div, ← Nat.cast_mul, Rat.floor_natCast_div_natCast]
  exact (Int.natCast_div _ _).symm

lemma fisherAux_eq_fisherAuxN {α : Type} :
    ∀ (i s : ℕ) (l : List α), ValidSeed s → fisherAux s l i = fisherAuxN s l i := by
  intro i
  induction i with
  | zero => intro s l hs; rfl
  | succ i ih =>
    intro s l hs
    rw [fisherAux_succ]
    have hj : (nextIntVal s 0 ((i + 1 : ℕ) : ℤ)).toNat =
        (nextSeed s - 1) * (i + 1 + 1) / 2147483646 := by
      rw [nextIntVal_natCast hs (i + 1), Int.toNat_natCast]
    rw [hj]
    exact ih (nextSeed s) _ (nextSeed_valid hs)

lemma shuffle_evalN {α : Type} {s : ℕ} (hs : ValidSeed s) (l : List α) :
    shuffle s l = fisherAuxN s l (l.length - 1) :=
  fisherAux_eq_fisherAuxN _ s l hs

/-- Claim C6 counterexample: with generator state 22247, `sample([0,0,1,2], 2)`
returns `[0, 0]`, which contains a duplicate even though the input has at
least 2 unique elements (3 distinct values; the values 1 and 2 each occur
exactly once): the no-duplicates clause of the claim fails whenever the input
itself contains a repeated value that the shuffle places in front. -/
theorem sample_duplicates_counterexample :
    sample ([0, 0, 1, 2] : List ℕ) 2 22247 = .ok ([0, 0], 625799276) ∧
    2 ≤ ([0, 0, 1, 2] : List ℕ).dedup.length ∧
    ¬ ([0, 0] : List ℕ).Nodup := by
  refine ⟨?_, by decide, by decide⟩
  have h1 : shuffle 22247 ([0, 0, 1, 2] : List ℕ) = ([0, 0, 2, 1], 625799276) := by
    rw [shuffle_evalN (by decide)]
    decide
  unfold sample
  rw [h1]
  rfl

/-- Claim C6 (amended): for every array `xs`, integer `n` and generator state,
`sample(xs, n)` fails when `n < 0` or `n > len`; for `0 ≤ n ≤ len` it returns
exactly `n` elements, each occurring in `xs`, taken as a prefix of a
permutation of `xs` (hence from pairwise distinct positions); the output is
duplicate-free whenever the elements of `xs` are pairwise distinct (but may
contain duplicates when `xs` merely has at least `n` distinct values). -/
theorem sample_spec {α : Type} (l : List α) (n : ℤ) (s : ℕ) :
    ((l.length : ℤ) < n → ∃ msg, sample l n s = .error (.plainError msg)) ∧
    (n < 0 → ∃ msg, sample l n s = .error (.plainError msg)) ∧
    (0 ≤ n → n ≤ (l.length : ℤ) →
      ∃ out s2, sample l n s = .ok (out, s2) ∧
        (out.length : ℤ) = n ∧
        (∀ x ∈ out, x ∈ l) ∧
        (∃ p : List α, List.Perm p l ∧ out = p.take n.toNat) ∧
        (l.Nodup → out.Nodup)) := by
  refine ⟨?_, ?_, ?_⟩
  · intro h
    refine ⟨"Cannot sample " ++ toString n ++ " elements from array of length " ++
      toString l.length, ?_⟩
    unfold sample
    rw [if_pos h]
  · intro h
    have h2 : ¬ ((l.length : ℤ) < n) := by
      have : (0 : ℤ) ≤ (l.length : ℤ) := by positivity
      omega
    refine ⟨"Sample size must be non-negative, got " ++ toString n, ?_⟩
    unfold sample
    rw [if_neg h2, if_pos h]
  · intro h0 hlen
    have hperm : List.Perm (shuffle s l).1 l := shuffle_perm s l
    have hlength : (shuffle s l).1.length = l.length := hperm.length_eq
    refine ⟨(shuffle s l).1.take n.toNat, (shuffle s l).2, ?_, ?_, ?_, ?_, ?_⟩
    · unfold sample
      rw [if_neg (by omega), if_neg (by omega)]
    · rw [List.length_take, hlength]
      omega
    · intro x hx
      exact hperm.mem_iff.mp ((List.take_sublist _ _).subset hx)
    · exact ⟨(shuffle s l).1, hperm, rfl⟩
    · intro hnd
      exact (List.take_sublist _ _).nodup (hperm.symm.nodup hnd)

/-- Claim C6 witness: sampling 2 of 3 distinct elements at state 1 hits the
non-throwing branch of `sample_spec`. -/
theorem sample_spec_witness :
    (0 : ℤ) ≤ 2 ∧ (2 : ℤ) ≤ (([10, 20, 30] : List ℕ).length : ℤ) ∧
    (∃ out s2, sample ([10, 20, 30] : List ℕ) 2 1 = .ok (out, s2) ∧
      (out.length : ℤ) = 2 ∧
      (∀ x ∈ out, x ∈ ([10, 20, 30] : List ℕ)) ∧
      (∃ p : List ℕ, List.Perm p [10, 20, 30] ∧ out = p.take (2 : ℤ).toNat) ∧
      (([10, 20, 30] : List ℕ).Nodup → out.Nodup)) :=
  ⟨by decide, by decide, (sample_spec [10, 20, 30] 2 1).2.2 (by decide) (by decide)⟩

lemma getD_concat {α : Type} (h : List (List α)) (c : List α) :
    (h ++ [c]).getD h.length [] = c := by
  rw [List.getD_eq_getElem?_getD, List.getElem?_concat_length]
  rfl

lemma set_concat {α : Type} (h : List (List α)) (c x : List α) :
    (h ++ [c]).set h.length x = h ++ [x] := by
  induction h with
  | nil => rfl
  | cons y t ih =>
    show y :: (t ++ [c]).set t.length x = y :: (t ++ [x])
    rw [ih]

lemma shuffleLoopRef_succ {α : Type} (r i : ℕ) (st : Store α) :
    shuffleLoopRef r (i + 1) st =
    shuffleLoopRef r i
      (Store.mk
        (st.heap.set r
          (listSwap (st.heap.getD r []) (i + 1) (nextIntVal st.seed 0 ((i + 1 : ℕ) : ℤ)).toNat))
        (nextSeed st.seed)) :=
  rfl

lemma shuffleLoopRef_concat {α : Type} :
    ∀ (i s : ℕ) (h : List (List α)) (cur : List α),
      shuffleLoopRef h.length i (Store.mk (h ++ [cur]) s) =
      Store.mk (h ++ [(fisherAux s cur i).1]) (fisherAux s cur i).2 := by
  intro i
  induction i with
  | zero => intro s h cur; rfl
  | succ i ih =>
    intro s h cur
    rw [shuffleLoopRef_succ]
    dsimp only
    rw [getD_concat, set_concat, fisherAux_succ]
    exact ih (nextSeed s) h _

/-- Claim C9: at the heap level, `shuffle` returns a newly allocated array (the
fresh reference `heap.length`, distinct from the argument reference), leaves
the caller's array — and every other pre-existing array — unchanged (the old
heap survives as an exact prefix), and the only other state it modifies is the
generator's internal seed, which advances exactly as in the pure `shuffle`. -/
theorem shuffleRef_frame {α : Type} (st : Store α) (r : ℕ) (hr : r < st.heap.length) :
    (shuffleRef st r).1 = st.heap.length ∧
    (shuffleRef st r).1 ≠ r ∧
    (shuffleRef st r).2.heap = st.heap ++ [(shuffle st.seed (st.heap.getD r [])).1] ∧
    (shuffleRef st r).2.seed = (shuffle st.seed (st.heap.getD r [])).2 := by
  unfold shuffleRef shuffle
  refine ⟨rfl, by omega, ?_, ?_⟩
  · rw [shuffleLoopRef_concat]
  · rw [shuffleLoopRef_concat]

/-- Claim C9 witness: the frame property instantiated on a store holding the
single array `[1, 2]` at reference 0 with generator state 5. -/
theorem shuffleRef_frame_witness :
    0 < wStore.heap.length ∧
    ((shuffleRef wStore 0).1 = wStore.heap.length ∧
      (shuffleRef wStore 0).1 ≠ 0 ∧
      (shuffleRef wStore 0).2.heap = wStore.heap ++ [(shuffle wStore.seed (wStore.heap.getD 0 [])).1] ∧
      (shuffleRef wStore 0).2.seed = (shuffle wStore.seed (wStore.heap.getD 0 [])).2) :=
  ⟨by decide, shuffleRef_frame wStore 0 (by decide)⟩

end SeededRandom

namespace Mikoshi

open SeededRandom

/-- Claim C1 (spec-modelled): when the leading configuration carries an
explicit seed, the composed injection pipeline is a function of the seed, the
configuration list and the input conversation alone — two runs, modelled by
two arbitrary ambient default seeds (standing for differing wall-clock
defaults between executions), produce identical mutated conversations and
identical statistics. -/
theorem inject_deterministic (d1 d2 : ℚ) (conv : Conversation)
    (cfgs : List ChaosConfiguration) (c : ChaosConfiguration)
    (hhead : cfgs.head? = some c) (hseed : c.seed.isSome) :
    inject d1 conv cfgs = inject d2 conv cfgs := by
  cases cfgs with
  | nil => simp at hhead
  | cons c0 rest =>
    have hc : c0 = c := by simpa using hhead
    subst hc
    obtain ⟨q, hq⟩ := Option.isSome_iff_exists.mp hseed
    unfold inject
    have key : injectAux (c0 :: rest) conv.messages (create d1) (ChaosStatistics.mk 0 0) =
        injectAux (c0 :: rest) conv.messages (create d2) (ChaosStatistics.mk 0 0) := by
      simp only [injectAux, hq]
    rw [key]

/-- Claim C1 witness: the spec's own example chain
`[lossCfg(seed = 42), delayCfg]` on a one-message conversation, run with two
different ambient defaults. -/
theorem inject_deterministic_witness :
    wCfgs.head? = some (ChaosConfiguration.mk (some 42) (ChaosParams.messageLoss (3 / 10))) ∧
    (ChaosConfiguration.mk (some (42 : ℚ)) (ChaosParams.messageLoss (3 / 10))).seed.isSome = true ∧
    inject 0 wConv wCfgs = inject 99 wConv wCfgs :=
  ⟨rfl, rfl, inject_deterministic 0 99 wConv wCfgs _ rfl rfl⟩

end Mikoshi
